import Mathlib

/-!
# logrus-logstash-async: the asynchronous hook and the Logstash formatter

A shallow embedding of `logstash.go`:

* the data model (`Fields`, `Entry`, the entry pool) and the pure functions
  `copyEntry`, `releaseEntry`, `DefaultFormatter`, `LogstashFormatter.Format`;
* the `Hook` (`New`, `Fire`, `fire`, `Flush`) as an executable step function over
  the shared state: the WaitGroup counter, the channel, the sink, the RWMutex,
  and the program counter of every call in flight.
-/

namespace Logstash

/-! ## Data model -/

/-- Values stored in a field map (the `interface{}` values of `logrus.Fields`). -/
inductive Value where
  | str (s : String)
  | int (i : Int)
  | bool (b : Bool)
  | null
  deriving DecidableEq, Repr

/-- The type `logrus.Fields` (`map[string]interface{}`): a finite map with unique keys.
The order of `entries` is the order in which a `range` loop visits the map; every
statement below is about lookups and holds for every order. A nil map reads like the
empty one. -/
abbrev Fields := AList (fun _ : String => Value)

/-- Two field maps are equal when their entries are: an instance that evaluates. -/
instance instDecidableEqFields : DecidableEq Fields :=
  fun a b => decidable_of_iff (a.entries = b.entries) AList.ext_iff.symm

/-- The type `runtime.Frame`, restricted to the three fields `copyEntry` reads. -/
structure Frame where
  Function : String
  File : String
  Line : Int
  deriving DecidableEq, Repr

/-- The type `logrus.Entry`, restricted to what this package reads or writes.
`ReportCaller` stands for `Logger != nil && Logger.ReportCaller`. -/
structure Entry where
  ReportCaller : Bool
  Data : Fields
  Time : Int
  Level : Nat
  Caller : Option Frame
  Message : String
  deriving DecidableEq

/-- The method `Entry.HasCaller` of logrus:
`Logger != nil && Logger.ReportCaller && Caller != nil`. -/
def Entry.HasCaller (e : Entry) : Bool :=
  e.ReportCaller && e.Caller.isSome

/-- A byte slice. -/
abbrev Bytes := List (Fin 256)

/-- A non-nil Go `error`. -/
abbrev Error := String

/-- The interface `logrus.Formatter`: `Format(*Entry) ([]byte, error)`. -/
abbrev Formatter := Entry → Bytes × Option Error

/-- The expression `fmt.Sprintf("%s:%d", file, line)`. -/
def sprintfFileLine (file : String) (line : Int) : String :=
  file ++ ":" ++ toString line

/-- The loop `for k, v := range src { dst[k] = v }`. -/
def rangeAssign (src : Fields) (dst : Fields) : Fields :=
  src.entries.foldl (fun d kv => d.insert kv.1 kv.2) dst

/-! ## The entry pool -/

/-- A call made while formatting, as the call itself records it: `entryPool.Get()` returning
`ne`, the inner `Format(ne)` with the free list of the pool as it stands during the call,
`entryPool.Put(ne)`. -/
inductive FormatEvent where
  | get (ne : Entry)
  | innerFormat (ne : Entry) (free : List Entry)
  | put (ne : Entry)
  deriving DecidableEq

/-- Whether the event is a `Put`. -/
def FormatEvent.isPut : FormatEvent → Bool
  | FormatEvent.put _ => true
  | _ => false

/-- The variable `entryPool`: its free list, and the history of the calls made so far, to
which every call below appends itself. -/
structure Pool where
  free : List Entry
  history : List FormatEvent
  deriving DecidableEq

/-- The value `&logrus.Entry{}` made by `entryPool.New`. -/
def newEntry : Entry :=
  { ReportCaller := false, Data := ∅, Time := 0, Level := 0, Caller := none, Message := "" }

/-- The call `entryPool.Get()`: `sync.Pool` hands out any pooled item, or a new one.
`pick` is the runtime's choice: `some i` takes the item at position `i` (a new entry
when there is none), `none` allocates. -/
def entryPoolGet (pool : Pool) (pick : Option Nat) : Entry × Pool :=
  match pick with
  | none => (newEntry, { pool with history := pool.history ++ [FormatEvent.get newEntry] })
  | some i =>
    match pool.free[i]? with
    | some ne =>
      (ne, { free := pool.free.eraseIdx i, history := pool.history ++ [FormatEvent.get ne] })
    | none => (newEntry, { pool with history := pool.history ++ [FormatEvent.get newEntry] })

/-- The call `entryPool.Put(e)`. -/
def entryPoolPut (pool : Pool) (e : Entry) : Pool :=
  { free := e :: pool.free, history := pool.history ++ [FormatEvent.put e] }

/-- The body of `copyEntry` after `ne := entryPool.Get()`: `ne` is the pooled entry in
the state it was left in. -/
def copyEntryInto (ne : Entry) (e : Entry) (fields : Fields) : Entry :=
  let data0 : Fields := ∅
  let data1 : Fields :=
    match e.HasCaller, e.Caller with
    | true, some c =>
      (data0.insert "function" (Value.str c.Function)).insert "file"
        (Value.str (sprintfFileLine c.File c.Line))
    | _, _ => data0
  let data2 := rangeAssign fields data1
  let data3 := rangeAssign e.Data data2
  { ne with Message := e.Message, Level := e.Level, Time := e.Time, Data := data3 }

/-- The function `copyEntry`: the merged entry and the pool it was taken from. -/
def copyEntry (pool : Pool) (pick : Option Nat) (e : Entry) (fields : Fields) : Entry × Pool :=
  let got := entryPoolGet pool pick
  (copyEntryInto got.1 e fields, got.2)

/-- The function `releaseEntry`. -/
def releaseEntry (pool : Pool) (e : Entry) : Pool :=
  entryPoolPut pool e

/-! ## The formatter -/

/-- The struct `LogstashFormatter`: an embedded `logrus.Formatter` and `logrus.Fields`. -/
structure LogstashFormatter where
  Formatter : Formatter
  Fields : Fields

/-- The package variable `logstashFields`. -/
def logstashFields : Fields :=
  (((∅ : Fields).insert "type" (Value.str "log")).insert "@version" (Value.str "1"))

/-- The loop of `DefaultFormatter`:
`for k, v := range defaults { if _, ok := fields[k]; !ok { fields[k] = v } }`. -/
def assignMissing (defaults : Fields) (fields : Fields) : Fields :=
  defaults.entries.foldl
    (fun d kv => if (d.lookup kv.1).isSome then d else d.insert kv.1 kv.2) fields

/-- The function `DefaultFormatter`. `json` is `&logrus.JSONFormatter{FieldMap: logstashFieldMap}`;
`fields = none` is the nil map, on which the first assignment panics. -/
def DefaultFormatter (json : Formatter) (fields : Option Fields) : Except String LogstashFormatter :=
  match fields with
  | none => Except.error "assignment to entry in nil map"
  | some m => Except.ok { Formatter := json, Fields := assignMissing logstashFields m }

/-- The call `f.Formatter.Format(ne)` of line 130: the inner formatter runs on `ne` while
the pool stands as `pool`, and the call is recorded with the free list it ran against. -/
def LogstashFormatter.innerFormat (f : LogstashFormatter) (pool : Pool) (ne : Entry) :
    (Bytes × Option Error) × Pool :=
  (f.Formatter ne,
    { pool with history := pool.history ++ [FormatEvent.innerFormat ne pool.free] })

/-- The outcome of one `LogstashFormatter.Format` call: the two results and the pool. -/
structure FormatResult where
  dataBytes : Bytes
  err : Option Error
  pool : Pool

/-- The method `LogstashFormatter.Format`: the pool is passed from each call to the next in
the order of lines 129-132. -/
def LogstashFormatter.Format (f : LogstashFormatter) (pool : Pool) (pick : Option Nat)
    (e : Entry) : FormatResult :=
  let copied := copyEntry pool pick e f.Fields
  let ne := copied.1
  let formatted := f.innerFormat copied.2 ne
  let released := releaseEntry formatted.2 ne
  { dataBytes := formatted.1.1, err := formatted.1.2, pool := released }

/-! ## The hook

`Hook.Fire`, `Hook.fire` and `Hook.Flush` run concurrently. The state below holds the
shared memory of the hook, the program counter of every call in flight, and a history
(`calls`, `sends`, `handled`, `returned`) that no step reads. Every record carries the
ordinal of the `Fire` call that brought it, so that two calls with equal entries stay
apart. -/

/-- A goroutine. -/
abbrev Tid := Nat

/-- A record: the ordinal of its `Fire` call and the entry. -/
abbrev Rec := Nat × Entry

/-- Where a `Fire` call stands: called (before `hook.mu.RLock()` returns), after `RLock`,
after `hook.wg.Add(1)`, after `hook.buf <- e`. -/
inductive FirePC where
  | called
  | rlocked
  | added
  | sent
  deriving DecidableEq

/-- A `Fire` call in flight. -/
structure FireCall where
  tid : Tid
  record : Rec
  pc : FirePC
  deriving DecidableEq

/-- Where a `Flush` call stands: called (before `hook.mu.Lock()` returns), after `Lock`,
after `hook.wg.Wait()`. -/
inductive FlushPC where
  | called
  | locked
  | waited
  deriving DecidableEq

/-- A `Flush` call in flight; `before` is the history of `Fire` calls that had returned
when this call began. -/
structure FlushCall where
  tid : Tid
  pc : FlushPC
  before : List Rec
  deriving DecidableEq

/-- Where the goroutine `hook.fire()` stands: at the receive, after the receive, after
`Format` (holding `dataBytes`), after `Write` and before `hook.wg.Done()`. -/
inductive Worker where
  | recv
  | got (r : Rec)
  | formatted (r : Rec) (dataBytes : Bytes)
  | wrote (r : Rec)
  deriving DecidableEq

/-- The record the worker has received and not yet called `Done` for. -/
def Worker.held : Worker → List Rec
  | Worker.recv => []
  | Worker.got r => [r]
  | Worker.formatted r _ => [r]
  | Worker.wrote r => [r]

/-- The held record, once `Write` has been called for it. -/
def Worker.written : Worker → List Rec
  | Worker.wrote r => [r]
  | _ => []

/-- The struct `Hook` with the calls in flight and the history. `writes` is the sequence
of `hook.writer.Write` calls, `printed` the output of `fmt.Println`. -/
structure Hook where
  cap : Nat
  buf : List Rec
  wg : Int
  readers : Nat
  locked : Bool
  writes : List (Nat × Bytes)
  printed : List Error
  worker : Worker
  fires : List FireCall
  flushes : List FlushCall
  calls : List Rec
  sends : List Rec
  handled : List Rec
  returned : List Rec
  deriving DecidableEq

/-- The package variable `BufSize` as declared. -/
def BufSize : Nat := 8192

/-- The function `New`, given the value of `BufSize` at the call: the channel is made
with that capacity and the worker is started. -/
def New (bufSize : Nat) : Hook :=
  { cap := bufSize, buf := [], wg := 0, readers := 0, locked := false, writes := [],
    printed := [], worker := Worker.recv, fires := [], flushes := [], calls := [],
    sends := [], handled := [], returned := [] }

/-- One atomic step of one goroutine. -/
inductive Action where
  | fireCall (t : Tid) (e : Entry)
  | fireRLock (t : Tid)
  | fireAdd (t : Tid)
  | fireEnqueue (t : Tid)
  | fireHandoff (t : Tid)
  | fireReturn (t : Tid)
  | flushCall (t : Tid)
  | flushLock (t : Tid)
  | flushWait (t : Tid)
  | flushReturn (t : Tid)
  | workerRecv
  | workerFormat
  | workerWrite (err : Option Error)
  | workerDone
  deriving DecidableEq

/-- Whether goroutine `t` is inside a `Fire` or `Flush` call. -/
def Hook.inCall (s : Hook) (t : Tid) : Bool :=
  s.fires.any (fun c => c.tid == t) || s.flushes.any (fun c => c.tid == t)

/-- The `Fire` call of goroutine `t`, if it stands at `pc`. -/
def Hook.fireAt (s : Hook) (t : Tid) (pc : FirePC) : Option FireCall :=
  match s.fires.find? (fun c => c.tid == t) with
  | some c => if c.pc = pc then some c else none
  | none => none

/-- The `Flush` call of goroutine `t`, if it stands at `pc`. -/
def Hook.flushAt (s : Hook) (t : Tid) (pc : FlushPC) : Option FlushCall :=
  match s.flushes.find? (fun c => c.tid == t) with
  | some c => if c.pc = pc then some c else none
  | none => none

/-- The bytes `fire` passes to `Write` for a record: what `Format` returned for it. -/
def payload (fmt : Formatter) (r : Rec) : Nat × Bytes :=
  (r.1, (fmt r.2).1)

/-- The step function: the state after the action, `none` when the action is not enabled
(the goroutine is blocked, or is not at that statement).

* `Fire` (lines 58-65): `fireCall`, `fireRLock`, `fireAdd`, then the send `hook.buf <- e`
  as `fireEnqueue` (a free slot in the buffer) or `fireHandoff` (the worker waits at its
  receive on an empty channel: the only way through an unbuffered channel), `fireReturn`
  (the deferred `RUnlock`).
* `Flush` (lines 51-56): `flushCall`, `flushLock`, `flushWait`, `flushReturn`
  (the deferred `Unlock`).
* `fire` (lines 31-49): `workerRecv`, `workerFormat` (with the `Println` of its error),
  `workerWrite` (the sink answers `err`; with the `Println`), `workerDone`.

`RLock` is granted whenever no writer holds the mutex: Go also holds back readers while
a writer waits, which only removes executions. -/
def step (fmt : Formatter) (s : Hook) : Action → Option Hook
  | Action.fireCall t e =>
    if s.inCall t then none
    else
      some { s with
        fires := ⟨t, (s.calls.length, e), FirePC.called⟩ :: s.fires,
        calls := s.calls ++ [(s.calls.length, e)] }
  | Action.fireRLock t =>
    match s.fireAt t FirePC.called with
    | none => none
    | some c =>
      if s.locked then none
      else
        some { s with
          readers := s.readers + 1,
          fires := ⟨c.tid, c.record, FirePC.rlocked⟩ :: s.fires.erase c }
  | Action.fireAdd t =>
    match s.fireAt t FirePC.rlocked with
    | none => none
    | some c =>
      some { s with
        wg := s.wg + 1,
        fires := ⟨c.tid, c.record, FirePC.added⟩ :: s.fires.erase c }
  | Action.fireEnqueue t =>
    match s.fireAt t FirePC.added with
    | none => none
    | some c =>
      if s.buf.length < s.cap then
        some { s with
          buf := s.buf ++ [c.record],
          sends := s.sends ++ [c.record],
          fires := ⟨c.tid, c.record, FirePC.sent⟩ :: s.fires.erase c }
      else none
  | Action.fireHandoff t =>
    match s.fireAt t FirePC.added with
    | none => none
    | some c =>
      match s.worker, s.buf with
      | Worker.recv, [] =>
        some { s with
          worker := Worker.got c.record,
          sends := s.sends ++ [c.record],
          fires := ⟨c.tid, c.record, FirePC.sent⟩ :: s.fires.erase c }
      | _, _ => none
  | Action.fireReturn t =>
    match s.fireAt t FirePC.sent with
    | none => none
    | some c =>
      some { s with
        readers := s.readers - 1,
        fires := s.fires.erase c,
        returned := s.returned ++ [c.record] }
  | Action.flushCall t =>
    if s.inCall t then none
    else some { s with flushes := ⟨t, FlushPC.called, s.returned⟩ :: s.flushes }
  | Action.flushLock t =>
    match s.flushAt t FlushPC.called with
    | none => none
    | some c =>
      if s.locked || s.readers != 0 then none
      else
        some { s with
          locked := true,
          flushes := ⟨c.tid, FlushPC.locked, c.before⟩ :: s.flushes.erase c }
  | Action.flushWait t =>
    match s.flushAt t FlushPC.locked with
    | none => none
    | some c =>
      if s.wg = 0 then
        some { s with flushes := ⟨c.tid, FlushPC.waited, c.before⟩ :: s.flushes.erase c }
      else none
  | Action.flushReturn t =>
    match s.flushAt t FlushPC.waited with
    | none => none
    | some c => some { s with locked := false, flushes := s.flushes.erase c }
  | Action.workerRecv =>
    match s.worker, s.buf with
    | Worker.recv, r :: rest => some { s with worker := Worker.got r, buf := rest }
    | _, _ => none
  | Action.workerFormat =>
    match s.worker with
    | Worker.got r =>
      some { s with
        worker := Worker.formatted r (fmt r.2).1,
        printed := s.printed ++ (fmt r.2).2.toList }
    | _ => none
  | Action.workerWrite err =>
    match s.worker with
    | Worker.formatted r dataBytes =>
      some { s with
        worker := Worker.wrote r,
        writes := s.writes ++ [(r.1, dataBytes)],
        printed := s.printed ++ err.toList }
    | _ => none
  | Action.workerDone =>
    match s.worker with
    | Worker.wrote r =>
      some { s with worker := Worker.recv, wg := s.wg - 1, handled := s.handled ++ [r] }
    | _ => none

/-- The state after a sequence of actions, `none` if one of them is not enabled. -/
def run (fmt : Formatter) (s : Hook) : List Action → Option Hook
  | [] => some s
  | a :: as => (step fmt s a).bind (fun s2 => run fmt s2 as)

/-- One turn of the loop of `fire`: receive, format, write (the sink answers `err`), done. -/
def fireTurn (err : Option Error) : List Action :=
  [Action.workerRecv, Action.workerFormat, Action.workerWrite err, Action.workerDone]

/-- The worker running alone for one turn per sink answer. -/
def fireTurns : List (Option Error) → List Action
  | [] => []
  | err :: errs => fireTurn err ++ fireTurns errs

/-- What one turn of `fire` prints: the formatter's error, then the sink's. -/
def turnPrints (fmt : Formatter) : List Rec → List (Option Error) → List Error
  | r :: rs, err :: errs => (fmt r.2).2.toList ++ err.toList ++ turnPrints fmt rs errs
  | _, _ => []

/-- The steps of `step` as a relation, each with what its guard establishes. -/
inductive Step (fmt : Formatter) (s : Hook) : Action → Hook → Prop where
  | fireCall (t : Tid) (e : Entry) (hg : s.inCall t = false) :
    Step fmt s (Action.fireCall t e) { s with
      fires := ⟨t, (s.calls.length, e), FirePC.called⟩ :: s.fires,
      calls := s.calls ++ [(s.calls.length, e)] }
  | fireRLock (t : Tid) (c : FireCall) (hm : c ∈ s.fires) (hpc : c.pc = FirePC.called)
      (hl : s.locked = false) :
    Step fmt s (Action.fireRLock t) { s with
      readers := s.readers + 1,
      fires := ⟨c.tid, c.record, FirePC.rlocked⟩ :: s.fires.erase c }
  | fireAdd (t : Tid) (c : FireCall) (hm : c ∈ s.fires) (hpc : c.pc = FirePC.rlocked) :
    Step fmt s (Action.fireAdd t) { s with
      wg := s.wg + 1,
      fires := ⟨c.tid, c.record, FirePC.added⟩ :: s.fires.erase c }
  | fireEnqueue (t : Tid) (c : FireCall) (hm : c ∈ s.fires) (hpc : c.pc = FirePC.added)
      (hroom : s.buf.length < s.cap) :
    Step fmt s (Action.fireEnqueue t) { s with
      buf := s.buf ++ [c.record],
      sends := s.sends ++ [c.record],
      fires := ⟨c.tid, c.record, FirePC.sent⟩ :: s.fires.erase c }
  | fireHandoff (t : Tid) (c : FireCall) (hm : c ∈ s.fires) (hpc : c.pc = FirePC.added)
      (hw : s.worker = Worker.recv) (hb : s.buf = []) :
    Step fmt s (Action.fireHandoff t) { s with
      worker := Worker.got c.record,
      sends := s.sends ++ [c.record],
      fires := ⟨c.tid, c.record, FirePC.sent⟩ :: s.fires.erase c }
  | fireReturn (t : Tid) (c : FireCall) (hm : c ∈ s.fires) (hpc : c.pc = FirePC.sent) :
    Step fmt s (Action.fireReturn t) { s with
      readers := s.readers - 1,
      fires := s.fires.erase c,
      returned := s.returned ++ [c.record] }
  | flushCall (t : Tid) (hg : s.inCall t = false) :
    Step fmt s (Action.flushCall t)
      { s with flushes := ⟨t, FlushPC.called, s.returned⟩ :: s.flushes }
  | flushLock (t : Tid) (c : FlushCall) (hm : c ∈ s.flushes) (hpc : c.pc = FlushPC.called)
      (hl : s.locked = false) (hr : s.readers = 0) :
    Step fmt s (Action.flushLock t) { s with
      locked := true,
      flushes := ⟨c.tid, FlushPC.locked, c.before⟩ :: s.flushes.erase c }
  | flushWait (t : Tid) (c : FlushCall) (hm : c ∈ s.flushes) (hpc : c.pc = FlushPC.locked)
      (hz : s.wg = 0) :
    Step fmt s (Action.flushWait t)
      { s with flushes := ⟨c.tid, FlushPC.waited, c.before⟩ :: s.flushes.erase c }
  | flushReturn (t : Tid) (c : FlushCall) (hm : c ∈ s.flushes) (hpc : c.pc = FlushPC.waited)
      (ht : c.tid = t) :
    Step fmt s (Action.flushReturn t) { s with locked := false, flushes := s.flushes.erase c }
  | workerRecv (r : Rec) (rest : List Rec) (hw : s.worker = Worker.recv)
      (hb : s.buf = r :: rest) :
    Step fmt s Action.workerRecv { s with worker := Worker.got r, buf := rest }
  | workerFormat (r : Rec) (hw : s.worker = Worker.got r) :
    Step fmt s Action.workerFormat { s with
      worker := Worker.formatted r (fmt r.2).1,
      printed := s.printed ++ (fmt r.2).2.toList }
  | workerWrite (err : Option Error) (r : Rec) (dataBytes : Bytes)
      (hw : s.worker = Worker.formatted r dataBytes) :
    Step fmt s (Action.workerWrite err) { s with
      worker := Worker.wrote r,
      writes := s.writes ++ [(r.1, dataBytes)],
      printed := s.printed ++ err.toList }
  | workerDone (r : Rec) (hw : s.worker = Worker.wrote r) :
    Step fmt s Action.workerDone
      { s with worker := Worker.recv, wg := s.wg - 1, handled := s.handled ++ [r] }

/-- The call has run `hook.wg.Add(1)` and not yet sent its record. -/
def FireCall.adding (c : FireCall) : Bool :=
  c.pc == FirePC.added

/-- The call carries the record of ordinal `n` and has not yet sent it. -/
def FireCall.carries (n : Nat) (c : FireCall) : Bool :=
  c.pc != FirePC.sent && c.record.1 == n

/-- The record has ordinal `n`. -/
def hasOrdinal (n : Nat) (r : Rec) : Bool :=
  r.1 == n

/-- What holds in every state the hook can reach (`inv_run`). -/
structure Inv (fmt : Formatter) (s : Hook) : Prop where
  wg_eq : s.wg = ((s.buf.length + s.worker.held.length
      + s.fires.countP FireCall.adding : Nat) : Int)
  cap_ok : s.buf.length ≤ s.cap
  sends_eq : s.sends = s.handled ++ s.worker.held ++ s.buf
  writes_eq : s.writes = (s.handled ++ s.worker.written).map (payload fmt)
  formatted_ok : ∀ r b, s.worker = Worker.formatted r b → b = (fmt r.2).1
  ids_sends : ∀ r ∈ s.sends, r.1 < s.calls.length
  ids_fires : ∀ c ∈ s.fires, c.record.1 < s.calls.length
  once : ∀ n, s.sends.countP (hasOrdinal n) + s.fires.countP (FireCall.carries n) ≤ 1
  returned_mem : ∀ r ∈ s.returned, r ∈ s.sends
  sent_mem : ∀ c ∈ s.fires, c.pc = FirePC.sent → c.record ∈ s.sends
  flush_before : ∀ f ∈ s.flushes, ∀ r ∈ f.before, r ∈ s.returned
  flush_waited : ∀ f ∈ s.flushes, f.pc = FlushPC.waited →
      ∀ r ∈ f.before, payload fmt r ∈ s.writes

/-! ## Concrete inputs -/

/-- An entry of level `n` with no fields and no caller. -/
def demoEntry (n : Nat) : Entry :=
  { newEntry with Level := n }

/-- A formatter that returns the level as one byte and fails, with no bytes, on level 5. -/
def demoFormatter : Formatter :=
  fun e => if e.Level = 5 then ([], some "unsupported field value") else ([Fin.ofNat e.Level], none)

/-- The same formatter without the failure. -/
def soundFormatter : Formatter :=
  fun e => ([Fin.ofNat e.Level], none)

/-- A formatter that fails on every entry and returns the byte it had produced so far. -/
def brokenFormatter : Formatter :=
  fun _ => ([123], some "json: unsupported type")

/-- A `Fire` call of goroutine `t` that is never held up: all of its steps in a row. -/
def uncontendedFire (t : Tid) (e : Entry) : List Action :=
  [Action.fireCall t e, Action.fireRLock t, Action.fireAdd t, Action.fireEnqueue t,
    Action.fireReturn t]

/-- The hook of capacity 1 after one `Fire` of `demoEntry 1` has returned. -/
def demoFired : Hook :=
  { New 1 with
    buf := [(0, demoEntry 1)], wg := 1, calls := [(0, demoEntry 1)],
    sends := [(0, demoEntry 1)], returned := [(0, demoEntry 1)] }

/-- Then goroutine 1 calls `Flush`. -/
def demoFlushing : Hook :=
  { demoFired with flushes := [⟨1, FlushPC.called, [(0, demoEntry 1)]⟩] }

/-- Then the worker handles the record and the `Flush` call gets through `Lock` and `Wait`. -/
def demoWaited : Hook :=
  { demoFired with
    buf := [], wg := 0, locked := true, writes := [(0, [1])], handled := [(0, demoEntry 1)],
    flushes := [⟨1, FlushPC.waited, [(0, demoEntry 1)]⟩] }

/-- Then the `Flush` call returns. -/
def demoFlushed : Hook :=
  { demoFired with
    buf := [], wg := 0, writes := [(0, [1])], handled := [(0, demoEntry 1)] }

/-- The hook of capacity 1 after one `Fire` has returned and a second one, of goroutine 1,
has run `Add`: the channel is full. -/
def demoFull : Hook :=
  { demoFired with
    wg := 2, readers := 1, fires := [⟨1, (1, demoEntry 2), FirePC.added⟩],
    calls := [(0, demoEntry 1), (1, demoEntry 2)] }

/-- The unbuffered hook with the `Fire` call of goroutine 0 at its send. -/
def demoUnbuffered : Hook :=
  { New 0 with
    wg := 1, readers := 1, fires := [⟨0, (0, demoEntry 1), FirePC.added⟩],
    calls := [(0, demoEntry 1)] }

/-- Ten records, of levels 1 to 10, in the channel of a hook of capacity 16. -/
def demoQueue : Hook :=
  { New 16 with
    buf := (List.range 10).map (fun i => (i, demoEntry (i + 1))), wg := 10,
    calls := (List.range 10).map (fun i => (i, demoEntry (i + 1))),
    sends := (List.range 10).map (fun i => (i, demoEntry (i + 1))),
    returned := (List.range 10).map (fun i => (i, demoEntry (i + 1))) }

/-! ## Lookups after the range loops -/

theorem foldl_insert_lookup (l : List (Sigma (fun _ : String => Value))) (hl : l.NodupKeys)
    (d : Fields) (k : String) :
    (l.foldl (fun d kv => d.insert kv.1 kv.2) d).lookup k
      = match List.dlookup k l with
        | some v => some v
        | none => d.lookup k := by
  induction l generalizing d with
  | nil => simp
  | cons x xs ih =>
    obtain ⟨xk, xv⟩ := x
    obtain ⟨hx, hxs⟩ := List.nodupKeys_cons.mp hl
    simp only at hx
    rw [List.foldl_cons, ih hxs]
    by_cases hk : k = xk
    · subst hk
      have hnone : List.dlookup k xs = none := List.dlookup_eq_none.mpr hx
      simp [hnone, List.dlookup_cons_eq, AList.lookup_insert]
    · have hk2 : xk ≠ k := fun h => hk h.symm
      rw [List.dlookup_cons_ne _ _ hk]
      cases List.dlookup k xs with
      | some v => rfl
      | none => simp [AList.lookup_insert_ne hk]

theorem rangeAssign_lookup (src dst : Fields) (k : String) :
    (rangeAssign src dst).lookup k
      = match src.lookup k with
        | some v => some v
        | none => dst.lookup k :=
  foldl_insert_lookup src.entries src.nodupKeys dst k

theorem foldl_missing_lookup (l : List (Sigma (fun _ : String => Value))) (hl : l.NodupKeys)
    (d : Fields) (k : String) :
    (l.foldl (fun d kv => if (d.lookup kv.1).isSome then d else d.insert kv.1 kv.2) d).lookup k
      = match d.lookup k with
        | some v => some v
        | none => List.dlookup k l := by
  induction l generalizing d with
  | nil => cases h : d.lookup k <;> simp [h]
  | cons x xs ih =>
    obtain ⟨xk, xv⟩ := x
    obtain ⟨hx, hxs⟩ := List.nodupKeys_cons.mp hl
    simp only at hx
    rw [List.foldl_cons, ih hxs]
    by_cases hk : k = xk
    · subst hk
      have hnone : List.dlookup k xs = none := List.dlookup_eq_none.mpr hx
      cases hd : d.lookup k with
      | some v => simp [hd]
      | none => simp [hd, hnone, AList.lookup_insert, List.dlookup_cons_eq]
    · rw [List.dlookup_cons_ne _ _ hk]
      by_cases hs : (d.lookup xk).isSome
      · simp [hs]
      · simp [hs, AList.lookup_insert_ne hk]

theorem assignMissing_lookup (defaults fields : Fields) (k : String) :
    (assignMissing defaults fields).lookup k
      = match fields.lookup k with
        | some v => some v
        | none => defaults.lookup k :=
  foldl_missing_lookup defaults.entries defaults.nodupKeys fields k

theorem lookup_insert_if (d : Fields) (a k : String) (b : Value) :
    (d.insert a b).lookup k = if k = a then some b else d.lookup k := by
  by_cases h : k = a
  · subst h; simp [AList.lookup_insert]
  · simp [h, AList.lookup_insert_ne h]

/-- The `Data` of the merged entry, key by key: the record's own field, else the static
field, else the caller field. -/
theorem copyEntryInto_lookup (ne e : Entry) (F : Fields) (k : String) :
    (copyEntryInto ne e F).Data.lookup k
      = match e.Data.lookup k with
        | some v => some v
        | none =>
          match F.lookup k with
          | some v => some v
          | none =>
            match e.HasCaller, e.Caller with
            | true, some c =>
              if k = "file" then some (Value.str (sprintfFileLine c.File c.Line))
              else if k = "function" then some (Value.str c.Function)
              else none
            | _, _ => none := by
  simp only [copyEntryInto, rangeAssign_lookup]
  cases e.Data.lookup k with
  | some v => rfl
  | none =>
    cases F.lookup k with
    | some v => rfl
    | none =>
      simp only
      cases hc : e.HasCaller <;> cases hf : e.Caller with
      | none => simp
      | some c =>
        first
        | (simp; done)
        | (simp only [lookup_insert_if, AList.lookup_empty])

/-! ## The hook: every step keeps the invariant -/

theorem fireAt_some {s : Hook} {t : Tid} {pc : FirePC} {c : FireCall}
    (h : s.fireAt t pc = some c) : c ∈ s.fires ∧ c.pc = pc ∧ c.tid = t := by
  unfold Hook.fireAt at h
  cases hf : s.fires.find? (fun c => c.tid == t) with
  | none => simp [hf] at h
  | some d =>
    simp only [hf] at h
    by_cases hpc : d.pc = pc
    · simp only [hpc, if_true, Option.some.injEq] at h
      subst h
      have h1 := List.find?_some hf
      exact ⟨List.mem_of_find?_eq_some hf, hpc, by simpa using h1⟩
    · simp [hpc] at h

theorem flushAt_some {s : Hook} {t : Tid} {pc : FlushPC} {c : FlushCall}
    (h : s.flushAt t pc = some c) : c ∈ s.flushes ∧ c.pc = pc ∧ c.tid = t := by
  unfold Hook.flushAt at h
  cases hf : s.flushes.find? (fun c => c.tid == t) with
  | none => simp [hf] at h
  | some d =>
    simp only [hf] at h
    by_cases hpc : d.pc = pc
    · simp only [hpc, if_true, Option.some.injEq] at h
      subst h
      have h1 := List.find?_some hf
      exact ⟨List.mem_of_find?_eq_some hf, hpc, by simpa using h1⟩
    · simp [hpc] at h

/-- Every step the function takes is a step of the relation. -/
theorem step_sound {fmt : Formatter} {s s2 : Hook} {a : Action}
    (h : step fmt s a = some s2) : Step fmt s a s2 := by
  cases a with
  | fireCall t e =>
    simp only [step] at h
    split at h
    · simp at h
    · rename_i hg
      simp only [Option.some.injEq] at h; subst h
      exact Step.fireCall t e (by simpa using hg)
  | fireRLock t =>
    simp only [step] at h
    cases hc : s.fireAt t FirePC.called with
    | none => simp [hc] at h
    | some c =>
      obtain ⟨hm, hpc, _⟩ := fireAt_some hc
      simp only [hc] at h
      split at h
      · simp at h
      · rename_i hl
        simp only [Option.some.injEq] at h; subst h
        exact Step.fireRLock t c hm hpc (by simpa using hl)
  | fireAdd t =>
    simp only [step] at h
    cases hc : s.fireAt t FirePC.rlocked with
    | none => simp [hc] at h
    | some c =>
      obtain ⟨hm, hpc, _⟩ := fireAt_some hc
      simp only [hc, Option.some.injEq] at h
      subst h; exact Step.fireAdd t c hm hpc
  | fireEnqueue t =>
    simp only [step] at h
    cases hc : s.fireAt t FirePC.added with
    | none => simp [hc] at h
    | some c =>
      obtain ⟨hm, hpc, _⟩ := fireAt_some hc
      simp only [hc] at h
      split at h
      · rename_i hroom
        simp only [Option.some.injEq] at h; subst h; exact Step.fireEnqueue t c hm hpc hroom
      · simp at h
  | fireHandoff t =>
    simp only [step] at h
    cases hc : s.fireAt t FirePC.added with
    | none => simp [hc] at h
    | some c =>
      obtain ⟨hm, hpc, _⟩ := fireAt_some hc
      simp only [hc] at h
      split at h
      · rename_i hw hb
        simp only [Option.some.injEq] at h; subst h; exact Step.fireHandoff t c hm hpc hw hb
      · simp at h
  | fireReturn t =>
    simp only [step] at h
    cases hc : s.fireAt t FirePC.sent with
    | none => simp [hc] at h
    | some c =>
      obtain ⟨hm, hpc, _⟩ := fireAt_some hc
      simp only [hc, Option.some.injEq] at h
      subst h; exact Step.fireReturn t c hm hpc
  | flushCall t =>
    simp only [step] at h
    split at h
    · simp at h
    · rename_i hg
      simp only [Option.some.injEq] at h; subst h
      exact Step.flushCall t (by simpa using hg)
  | flushLock t =>
    simp only [step] at h
    cases hc : s.flushAt t FlushPC.called with
    | none => simp [hc] at h
    | some c =>
      obtain ⟨hm, hpc, _⟩ := flushAt_some hc
      simp only [hc] at h
      split at h
      · simp at h
      · rename_i hl
        simp only [Option.some.injEq] at h; subst h
        simp only [Bool.or_eq_true, bne_iff_ne, ne_eq, not_or, Bool.not_eq_true,
          Decidable.not_not] at hl
        exact Step.flushLock t c hm hpc hl.1 hl.2
  | flushWait t =>
    simp only [step] at h
    cases hc : s.flushAt t FlushPC.locked with
    | none => simp [hc] at h
    | some c =>
      obtain ⟨hm, hpc, _⟩ := flushAt_some hc
      simp only [hc] at h
      split at h
      · rename_i hz
        simp only [Option.some.injEq] at h; subst h; exact Step.flushWait t c hm hpc hz
      · simp at h
  | flushReturn t =>
    simp only [step] at h
    cases hc : s.flushAt t FlushPC.waited with
    | none => simp [hc] at h
    | some c =>
      obtain ⟨hm, hpc, ht⟩ := flushAt_some hc
      simp only [hc, Option.some.injEq] at h
      subst h; exact Step.flushReturn t c hm hpc ht
  | workerRecv =>
    simp only [step] at h
    split at h
    · rename_i r rest hw hb
      simp only [Option.some.injEq] at h; subst h; exact Step.workerRecv r rest hw hb
    · simp at h
  | workerFormat =>
    simp only [step] at h
    split at h
    · rename_i r hw
      simp only [Option.some.injEq] at h; subst h; exact Step.workerFormat r hw
    · simp at h
  | workerWrite err =>
    simp only [step] at h
    split at h
    · rename_i r b hw
      simp only [Option.some.injEq] at h; subst h; exact Step.workerWrite err r b hw
    · simp at h
  | workerDone =>
    simp only [step] at h
    split at h
    · rename_i r hw
      simp only [Option.some.injEq] at h; subst h; exact Step.workerDone r hw
    · simp at h


theorem countP_erase_mem {α : Type} [DecidableEq α] (p : α → Bool) {c : α} {l : List α}
    (h : c ∈ l) : l.countP p = (l.erase c).countP p + (if p c then 1 else 0) := by
  have hp := (List.perm_cons_erase h).countP_eq p
  rw [hp, List.countP_cons]

theorem inv_step_wg {fmt : Formatter} {s s2 : Hook} {a : Action} (hi : Inv fmt s) (hs : Step fmt s a s2) :
    s2.wg = ((s2.buf.length + s2.worker.held.length
      + s2.fires.countP FireCall.adding : Nat) : Int) ∧ s2.buf.length ≤ s2.cap := by
  have h1 := hi.wg_eq
  have h2 := hi.cap_ok
  cases hs with
  | fireCall t e hg => simp [List.countP_cons, FireCall.adding]; exact ⟨h1, h2⟩
  | fireRLock t c hm hpc hl | fireAdd t c hm hpc | fireEnqueue t c hm hpc hroom | fireReturn t c hm hpc =>
    have hc := countP_erase_mem FireCall.adding hm
    simp [hpc, FireCall.adding] at hc
    simp [List.countP_cons, FireCall.adding]
    omega
  | fireHandoff t c hm hpc hw hb =>
    have hc := countP_erase_mem FireCall.adding hm
    simp [hpc, FireCall.adding] at hc
    simp [List.countP_cons, hw, hb, Worker.held, FireCall.adding] at h1 h2 ⊢
    omega
  | flushCall t hg => exact ⟨h1, h2⟩
  | flushLock t c hm hpc hl hr0 | flushWait t c hm hpc hz | flushReturn t c hm hpc ht => exact ⟨h1, h2⟩
  | workerRecv r rest hw hb =>
    simp [hw, hb, Worker.held] at h1 h2 ⊢
    omega
  | workerFormat r hw | workerWrite err r b hw | workerDone r hw =>
    simp [hw, Worker.held] at h1 h2 ⊢
    omega

theorem inv_step_order {fmt : Formatter} {s s2 : Hook} {a : Action} (hi : Inv fmt s) (hs : Step fmt s a s2) :
    s2.sends = s2.handled ++ s2.worker.held ++ s2.buf
    ∧ s2.writes = (s2.handled ++ s2.worker.written).map (payload fmt)
    ∧ (∀ r b, s2.worker = Worker.formatted r b → b = (fmt r.2).1) := by
  have h1 := hi.sends_eq
  have h2 := hi.writes_eq
  have h3 := hi.formatted_ok
  cases hs with
  | fireCall t e hg => exact ⟨h1, h2, h3⟩
  | fireRLock t c hm hpc hl | fireAdd t c hm hpc | fireReturn t c hm hpc => exact ⟨h1, h2, h3⟩
  | fireEnqueue t c hm hpc hroom => exact ⟨by simp [h1], h2, h3⟩
  | fireHandoff t c hm hpc hw hb =>
    simp only [hw, hb, Worker.held, Worker.written] at h1 h2 ⊢
    exact ⟨by simp [h1], by simpa using h2, by simp⟩
  | flushCall t hg => exact ⟨h1, h2, h3⟩
  | flushLock t c hm hpc hl hr0 | flushWait t c hm hpc hz | flushReturn t c hm hpc ht => exact ⟨h1, h2, h3⟩
  | workerRecv r rest hw hb =>
    simp only [hw, hb, Worker.held, Worker.written] at h1 h2 ⊢
    exact ⟨by simp [h1], by simpa using h2, by simp⟩
  | workerFormat r hw =>
    simp only [hw, Worker.held, Worker.written] at h1 h2 ⊢
    refine ⟨h1, by simpa using h2, ?_⟩
    intro r2 b hrb
    simp only [Worker.formatted.injEq] at hrb
    obtain ⟨hr, hb⟩ := hrb
    subst hr; exact hb.symm
  | workerWrite err r b hw =>
    have hb := h3 r b hw
    simp only [hw, Worker.held, Worker.written] at h1 h2 ⊢
    exact ⟨h1, by simp [h2, hb, payload], by simp⟩
  | workerDone r hw =>
    simp only [hw, Worker.held, Worker.written] at h1 h2 ⊢
    exact ⟨by simp [h1], by simpa using h2, by simp⟩

theorem inv_step_ids {fmt : Formatter} {s s2 : Hook} {a : Action} (hi : Inv fmt s) (hs : Step fmt s a s2) :
    (∀ r ∈ s2.sends, r.1 < s2.calls.length)
    ∧ (∀ c ∈ s2.fires, c.record.1 < s2.calls.length) := by
  have h1 := hi.ids_sends
  have h2 := hi.ids_fires
  cases hs with
  | fireCall t e hg =>
    refine ⟨fun r hr => ?_, fun c hc => ?_⟩
    · have := h1 r hr; simp; omega
    · simp only [List.mem_cons] at hc
      rcases hc with hc | hc
      · subst hc; simp
      · have := h2 c hc; simp; omega
  | fireRLock t c hm hpc hl | fireAdd t c hm hpc =>
    refine ⟨h1, fun d hd => ?_⟩
    simp only [List.mem_cons] at hd
    rcases hd with hd | hd
    · subst hd; exact h2 c hm
    · exact h2 d (List.mem_of_mem_erase hd)
  | fireEnqueue t c hm hpc hroom | fireHandoff t c hm hpc hw hb =>
    refine ⟨fun r hr => ?_, fun d hd => ?_⟩
    · simp only [List.mem_append, List.mem_singleton] at hr
      rcases hr with hr | hr
      · exact h1 r hr
      · subst hr; exact h2 c hm
    · simp only [List.mem_cons] at hd
      rcases hd with hd | hd
      · subst hd; exact h2 c hm
      · exact h2 d (List.mem_of_mem_erase hd)
  | fireReturn t c hm hpc => exact ⟨h1, fun d hd => h2 d (List.mem_of_mem_erase hd)⟩
  | flushCall t hg => exact ⟨h1, h2⟩
  | flushLock t c hm hpc hl hr0 | flushWait t c hm hpc hz | flushReturn t c hm hpc ht => exact ⟨h1, h2⟩
  | workerRecv r rest hw hb => exact ⟨h1, h2⟩
  | workerFormat r hw | workerWrite err r b hw | workerDone r hw => exact ⟨h1, h2⟩

theorem inv_step_once {fmt : Formatter} {s s2 : Hook} {a : Action} (hi : Inv fmt s) (hs : Step fmt s a s2)
    (n : Nat) :
    s2.sends.countP (hasOrdinal n) + s2.fires.countP (FireCall.carries n) ≤ 1 := by
  have h1 := hi.once n
  cases hs with
  | fireCall t e hg =>
    simp only [List.countP_cons]
    by_cases hn : s.calls.length = n
    · subst hn
      have z1 : s.sends.countP (hasOrdinal s.calls.length) = 0 := by
        rw [List.countP_eq_zero]
        intro r hr
        have := hi.ids_sends r hr
        simp [hasOrdinal]; omega
      have z2 : s.fires.countP (FireCall.carries s.calls.length) = 0 := by
        rw [List.countP_eq_zero]
        intro c hc
        have := hi.ids_fires c hc
        simp [FireCall.carries]; omega
      simp [z1, z2, FireCall.carries]
    · simp [hn, FireCall.carries]; exact h1
  | fireRLock t c hm hpc hl | fireAdd t c hm hpc | fireEnqueue t c hm hpc hroom
    | fireHandoff t c hm hpc hw hb | fireReturn t c hm hpc =>
    have hc := countP_erase_mem (FireCall.carries n) hm
    simp only [List.countP_cons, List.countP_append, List.countP_nil]
    by_cases hn : c.record.1 = n <;>
      simp [hn, hpc, FireCall.carries, hasOrdinal] at hc ⊢ <;> omega
  | flushCall t hg => exact h1
  | flushLock t c hm hpc hl hr0 | flushWait t c hm hpc hz | flushReturn t c hm hpc ht => exact h1
  | workerRecv r rest hw hb => exact h1
  | workerFormat r hw | workerWrite err r b hw | workerDone r hw => exact h1


theorem inv_step_returned {fmt : Formatter} {s s2 : Hook} {a : Action} (hi : Inv fmt s) (hs : Step fmt s a s2) :
    (∀ r ∈ s2.returned, r ∈ s2.sends)
    ∧ (∀ c ∈ s2.fires, c.pc = FirePC.sent → c.record ∈ s2.sends) := by
  have h1 := hi.returned_mem
  have h2 := hi.sent_mem
  cases hs with
  | fireCall t e hg =>
    refine ⟨h1, fun d hd hp => ?_⟩
    simp only [List.mem_cons] at hd
    rcases hd with hd | hd
    · subst hd; simp at hp
    · exact h2 d hd hp
  | fireRLock t c hm hpc hl | fireAdd t c hm hpc =>
    refine ⟨h1, fun d hd hp => ?_⟩
    simp only [List.mem_cons] at hd
    rcases hd with hd | hd
    · subst hd; simp at hp
    · exact h2 d (List.mem_of_mem_erase hd) hp
  | fireEnqueue t c hm hpc hroom | fireHandoff t c hm hpc hw hb =>
    refine ⟨fun r hr => List.mem_append_left _ (h1 r hr), fun d hd hp => ?_⟩
    simp only [List.mem_cons] at hd
    rcases hd with hd | hd
    · subst hd; simp
    · exact List.mem_append_left _ (h2 d (List.mem_of_mem_erase hd) hp)
  | fireReturn t c hm hpc =>
    refine ⟨fun r hr => ?_, fun d hd hp => h2 d (List.mem_of_mem_erase hd) hp⟩
    simp only [List.mem_append, List.mem_singleton] at hr
    rcases hr with hr | hr
    · exact h1 r hr
    · subst hr; exact h2 c hm hpc
  | flushCall t hg => exact ⟨h1, h2⟩
  | flushLock t c hm hpc hl hr0 | flushWait t c hm hpc hz | flushReturn t c hm hpc ht => exact ⟨h1, h2⟩
  | workerRecv r rest hw hb => exact ⟨h1, h2⟩
  | workerFormat r hw | workerWrite err r b hw | workerDone r hw => exact ⟨h1, h2⟩

/-- With the counter at zero the channel is empty and the worker is at its receive, so
every record sent has been written. -/
theorem written_of_wg_zero {fmt : Formatter} {s : Hook} (hi : Inv fmt s) (hz : s.wg = 0)
    (r : Rec) (hr : r ∈ s.sends) : payload fmt r ∈ s.writes := by
  have h1 := hi.wg_eq
  have hb : s.buf = [] := List.length_eq_zero.mp (by omega)
  have hh : s.worker.held = [] := List.length_eq_zero.mp (by omega)
  rw [hi.sends_eq, hh, hb] at hr
  rw [hi.writes_eq]
  simp only [List.append_nil] at hr
  exact List.mem_map_of_mem _ (List.mem_append_left _ hr)

theorem inv_step_flush {fmt : Formatter} {s s2 : Hook} {a : Action} (hi : Inv fmt s) (hs : Step fmt s a s2) :
    (∀ f ∈ s2.flushes, ∀ r ∈ f.before, r ∈ s2.returned)
    ∧ (∀ f ∈ s2.flushes, f.pc = FlushPC.waited → ∀ r ∈ f.before, payload fmt r ∈ s2.writes) := by
  have h1 := hi.flush_before
  have h2 := hi.flush_waited
  cases hs with
  | fireCall t e hg => exact ⟨h1, h2⟩
  | fireRLock t c hm hpc hl | fireAdd t c hm hpc => exact ⟨h1, h2⟩
  | fireEnqueue t c hm hpc hroom | fireHandoff t c hm hpc hw hb => exact ⟨h1, h2⟩
  | fireReturn t c hm hpc =>
    exact ⟨fun f hf r hr => List.mem_append_left _ (h1 f hf r hr), h2⟩
  | flushCall t hg =>
    refine ⟨fun f hf r hr => ?_, fun f hf hp r hr => ?_⟩
    · simp only [List.mem_cons] at hf
      rcases hf with hf | hf
      · subst hf; exact hr
      · exact h1 f hf r hr
    · simp only [List.mem_cons] at hf
      rcases hf with hf | hf
      · subst hf; simp at hp
      · exact h2 f hf hp r hr
  | flushLock t c hm hpc hl hr0 =>
    refine ⟨fun f hf r hr => ?_, fun f hf hp r hr => ?_⟩
    · simp only [List.mem_cons] at hf
      rcases hf with hf | hf
      · subst hf; exact h1 c hm r hr
      · exact h1 f (List.mem_of_mem_erase hf) r hr
    · simp only [List.mem_cons] at hf
      rcases hf with hf | hf
      · subst hf; simp at hp
      · exact h2 f (List.mem_of_mem_erase hf) hp r hr
  | flushWait t c hm hpc hz =>
    refine ⟨fun f hf r hr => ?_, fun f hf hp r hr => ?_⟩
    · simp only [List.mem_cons] at hf
      rcases hf with hf | hf
      · subst hf; exact h1 c hm r hr
      · exact h1 f (List.mem_of_mem_erase hf) r hr
    · simp only [List.mem_cons] at hf
      rcases hf with hf | hf
      · subst hf
        exact written_of_wg_zero hi hz r (hi.returned_mem r (h1 c hm r hr))
      · exact h2 f (List.mem_of_mem_erase hf) hp r hr
  | flushReturn t c hm hpc ht =>
    exact ⟨fun f hf r hr => h1 f (List.mem_of_mem_erase hf) r hr,
      fun f hf hp r hr => h2 f (List.mem_of_mem_erase hf) hp r hr⟩
  | workerRecv r rest hw hb => exact ⟨h1, h2⟩
  | workerFormat r hw | workerDone r hw => exact ⟨h1, h2⟩
  | workerWrite err r b hw =>
    exact ⟨h1, fun f hf hp r hr => List.mem_append_left _ (h2 f hf hp r hr)⟩

theorem inv_step {fmt : Formatter} {s s2 : Hook} {a : Action} (hi : Inv fmt s) (hs : Step fmt s a s2) :
    Inv fmt s2 := by
  obtain ⟨a1, a2⟩ := inv_step_wg hi hs
  obtain ⟨b1, b2, b3⟩ := inv_step_order hi hs
  obtain ⟨c1, c2⟩ := inv_step_ids hi hs
  obtain ⟨d1, d2⟩ := inv_step_returned hi hs
  obtain ⟨e1, e2⟩ := inv_step_flush hi hs
  exact ⟨a1, a2, b1, b2, b3, c1, c2, inv_step_once hi hs, d1, d2, e1, e2⟩

theorem inv_New (fmt : Formatter) (bufSize : Nat) : Inv fmt (New bufSize) := by
  constructor <;> simp [New, Worker.held, Worker.written]

theorem inv_run {fmt : Formatter} {s s2 : Hook} (as : List Action) (hi : Inv fmt s)
    (h : run fmt s as = some s2) : Inv fmt s2 := by
  induction as generalizing s with
  | nil => simp only [run, Option.some.injEq] at h; subst h; exact hi
  | cons a as ih =>
    simp only [run] at h
    cases hs : step fmt s a with
    | none => simp [hs] at h
    | some s1 =>
      simp only [hs, Option.some_bind] at h
      exact ih (inv_step hi (step_sound hs)) h


/-! ## The worker running alone -/

theorem run_append (fmt : Formatter) (s : Hook) (as bs : List Action) :
    run fmt s (as ++ bs) = (run fmt s as).bind (fun s2 => run fmt s2 bs) := by
  induction as generalizing s with
  | nil => simp [run]
  | cons a as ih =>
    simp only [List.cons_append, run]
    cases step fmt s a with
    | none => simp
    | some s1 => simp [ih]

/-- One turn of `fire` on a non-empty channel, whatever the formatter and the sink answer. -/
theorem run_fireTurn (fmt : Formatter) (s : Hook) (err : Option Error) (r : Rec) (rest : List Rec)
    (hw : s.worker = Worker.recv) (hb : s.buf = r :: rest) :
    run fmt s (fireTurn err) = some { s with
      buf := rest, wg := s.wg - 1, writes := s.writes ++ [payload fmt r],
      printed := s.printed ++ ((fmt r.2).2.toList ++ err.toList),
      handled := s.handled ++ [r] } := by
  simp [fireTurn, run, step, hw, hb, payload]

/-- The worker running alone empties the channel: one `Write` and one `Done` per record. -/
theorem run_fireTurns (fmt : Formatter) (errs : List (Option Error)) (s : Hook)
    (hw : s.worker = Worker.recv) (hlen : errs.length = s.buf.length) :
    run fmt s (fireTurns errs) = some { s with
      buf := [], wg := s.wg - s.buf.length,
      writes := s.writes ++ s.buf.map (payload fmt),
      printed := s.printed ++ turnPrints fmt s.buf errs,
      handled := s.handled ++ s.buf } := by
  induction errs generalizing s with
  | nil =>
    have hb : s.buf = [] := List.length_eq_zero.mp hlen.symm
    cases s
    simp only at hb
    subst hb
    simp [fireTurns, run, turnPrints]
  | cons err errs ih =>
    cases hb : s.buf with
    | nil => simp [hb] at hlen
    | cons r rest =>
      have hlen2 : errs.length = rest.length := by simpa [hb] using hlen
      rw [fireTurns, run_append, run_fireTurn fmt s err r rest hw hb, Option.some_bind]
      rw [ih _ (by exact hw) (by exact hlen2)]
      simp [turnPrints, Int.sub_sub, Int.add_comm]


/-! ## What a `Flush` call has seen -/

theorem not_inCall_flushes {s : Hook} {t : Tid} (hg : s.inCall t = false) :
    ∀ f ∈ s.flushes, f.tid ≠ t := by
  intro f hf he
  simp only [Hook.inCall, Bool.or_eq_false_iff, List.any_eq_false] at hg
  exact hg.2 f hf (by simpa using he)

theorem not_inCall_fires {s : Hook} {t : Tid} (hg : s.inCall t = false) :
    ∀ c ∈ s.fires, c.tid ≠ t := by
  intro c hc he
  simp only [Hook.inCall, Bool.or_eq_false_iff, List.any_eq_false] at hg
  exact hg.1 c hc (by simpa using he)

/-- The records in `R` stay returned, and stay in the `before` of every call of `t`. -/
theorem seen_step {fmt : Formatter} {s s2 : Hook} {a : Action} (R : List Rec) (t : Tid)
    (hs : Step fmt s a s2) (h1 : ∀ r ∈ R, r ∈ s.returned)
    (h2 : ∀ f ∈ s.flushes, f.tid = t → ∀ r ∈ R, r ∈ f.before) :
    (∀ r ∈ R, r ∈ s2.returned) ∧ (∀ f ∈ s2.flushes, f.tid = t → ∀ r ∈ R, r ∈ f.before) := by
  cases hs with
  | fireCall t e hg => exact ⟨h1, h2⟩
  | fireRLock t c hm hpc hl | fireAdd t c hm hpc => exact ⟨h1, h2⟩
  | fireEnqueue t c hm hpc hroom | fireHandoff t c hm hpc hw hb => exact ⟨h1, h2⟩
  | fireReturn t c hm hpc => exact ⟨fun r hr => List.mem_append_left _ (h1 r hr), h2⟩
  | flushCall t2 hg =>
    refine ⟨h1, fun f hf ht r hr => ?_⟩
    simp only [List.mem_cons] at hf
    rcases hf with hf | hf
    · subst hf; exact h1 r hr
    · exact h2 f hf ht r hr
  | flushLock t2 c hm hpc hl hr0 | flushWait t2 c hm hpc hz =>
    refine ⟨h1, fun f hf ht r hr => ?_⟩
    simp only [List.mem_cons] at hf
    rcases hf with hf | hf
    · subst hf; exact h2 c hm ht r hr
    · exact h2 f (List.mem_of_mem_erase hf) ht r hr
  | flushReturn t2 c hm hpc ht2 =>
    exact ⟨h1, fun f hf ht r hr => h2 f (List.mem_of_mem_erase hf) ht r hr⟩
  | workerRecv r rest hw hb => exact ⟨h1, h2⟩
  | workerFormat r hw | workerWrite err r b hw | workerDone r hw => exact ⟨h1, h2⟩

theorem seen_run {fmt : Formatter} {s s2 : Hook} (R : List Rec) (t : Tid) (as : List Action)
    (h : run fmt s as = some s2) (h1 : ∀ r ∈ R, r ∈ s.returned)
    (h2 : ∀ f ∈ s.flushes, f.tid = t → ∀ r ∈ R, r ∈ f.before) :
    (∀ r ∈ R, r ∈ s2.returned) ∧ (∀ f ∈ s2.flushes, f.tid = t → ∀ r ∈ R, r ∈ f.before) := by
  induction as generalizing s with
  | nil => simp only [run, Option.some.injEq] at h; subst h; exact ⟨h1, h2⟩
  | cons a as ih =>
    simp only [run] at h
    cases hs : step fmt s a with
    | none => simp [hs] at h
    | some s1 =>
      simp only [hs, Option.some_bind] at h
      obtain ⟨k1, k2⟩ := seen_step R t (step_sound hs) h1 h2
      exact ih h k1 k2

/-! ## A single producer -/

theorem eq_singleton_of_mem {α : Type} {c : α} {l : List α} (hm : c ∈ l) (hl : l.length ≤ 1) :
    l = [c] := by
  match l, hm, hl with
  | [x], hm, _ => simp at hm; simp [hm]
  | _ :: _ :: _, _, hl => simp at hl

/-- With one producer at most one `Fire` call is in flight, and the calls made so far are the
records sent followed by the record of a call that has not yet sent. -/
theorem single_step {fmt : Formatter} {s s2 : Hook} {a : Action} (p : Tid)
    (hs : Step fmt s a s2) (ha : ∀ t e, a = Action.fireCall t e → t = p)
    (h1 : ∀ c ∈ s.fires, c.tid = p) (h2 : s.fires.length ≤ 1)
    (h3 : s.calls = s.sends
      ++ (s.fires.filter (fun c => c.pc != FirePC.sent)).map (fun c => c.record)) :
    (∀ c ∈ s2.fires, c.tid = p) ∧ s2.fires.length ≤ 1
    ∧ s2.calls = s2.sends
      ++ (s2.fires.filter (fun c => c.pc != FirePC.sent)).map (fun c => c.record) := by
  cases hs with
  | fireCall t e hg =>
    have htp := ha t e rfl
    have hnil : s.fires = [] := by
      cases hf : s.fires with
      | nil => rfl
      | cons c l =>
        exfalso
        exact not_inCall_fires hg c (by simp [hf]) (by rw [h1 c (by simp [hf]), htp])
    simp only [hnil] at h3 ⊢
    simp [htp, h3]
  | fireRLock t c hm hpc hl | fireAdd t c hm hpc =>
    have he := eq_singleton_of_mem hm h2
    have ht := h1 c hm
    simp only [he] at h3 ⊢
    simp [ht, hpc] at h3 ⊢
    exact h3
  | fireEnqueue t c hm hpc hroom | fireHandoff t c hm hpc hw hb =>
    have he := eq_singleton_of_mem hm h2
    have ht := h1 c hm
    simp only [he] at h3 ⊢
    simp [ht, hpc] at h3 ⊢
    exact h3
  | fireReturn t c hm hpc =>
    have he := eq_singleton_of_mem hm h2
    simp only [he] at h3 ⊢
    simp [hpc] at h3 ⊢
    exact h3
  | flushCall t2 hg => exact ⟨h1, h2, h3⟩
  | flushLock t2 c hm hpc hl hr0 | flushWait t2 c hm hpc hz | flushReturn t2 c hm hpc ht2 =>
    exact ⟨h1, h2, h3⟩
  | workerRecv r rest hw hb => exact ⟨h1, h2, h3⟩
  | workerFormat r hw | workerWrite err r b hw | workerDone r hw => exact ⟨h1, h2, h3⟩

theorem single_run {fmt : Formatter} {s s2 : Hook} (p : Tid) (as : List Action)
    (h : run fmt s as = some s2) (ha : ∀ a ∈ as, ∀ t e, a = Action.fireCall t e → t = p)
    (h1 : ∀ c ∈ s.fires, c.tid = p) (h2 : s.fires.length ≤ 1)
    (h3 : s.calls = s.sends
      ++ (s.fires.filter (fun c => c.pc != FirePC.sent)).map (fun c => c.record)) :
    s2.calls = s2.sends
      ++ (s2.fires.filter (fun c => c.pc != FirePC.sent)).map (fun c => c.record) := by
  induction as generalizing s with
  | nil => simp only [run, Option.some.injEq] at h; subst h; exact h3
  | cons a as ih =>
    simp only [run] at h
    cases hs : step fmt s a with
    | none => simp [hs] at h
    | some s1 =>
      simp only [hs, Option.some_bind] at h
      obtain ⟨k1, k2, k3⟩ :=
        single_step p (step_sound hs) (ha a (List.mem_cons_self a as)) h1 h2 h3
      exact ih h (fun b hb => ha b (List.mem_cons_of_mem a hb)) k1 k2 k3

/-- The `Write` calls are those of a prefix of the records sent. -/
theorem writes_prefix_sends {fmt : Formatter} {s : Hook} (hi : Inv fmt s) :
    s.writes <+: s.sends.map (payload fmt) := by
  rw [hi.writes_eq, hi.sends_eq]
  cases hw : s.worker <;>
    simp [Worker.held, Worker.written, List.map_append, List.append_assoc]

theorem nodup_of_ordinals (l : List Rec) (h : ∀ n, l.countP (hasOrdinal n) ≤ 1) : l.Nodup := by
  induction l with
  | nil => exact List.nodup_nil
  | cons x xs ih =>
    rw [List.nodup_cons]
    constructor
    · intro hx
      have h1 := h x.1
      have h2 : 0 < xs.countP (hasOrdinal x.1) :=
        List.countP_pos_iff.mpr ⟨x, hx, by simp [hasOrdinal]⟩
      simp only [List.countP_cons, hasOrdinal, beq_self_eq_true, if_true] at h1
      simp only [hasOrdinal] at h2
      omega
    · apply ih
      intro n
      have h1 := h n
      simp only [List.countP_cons] at h1
      omega

/-- The ordinals of the records sent are distinct. -/
theorem sends_nodup {fmt : Formatter} {s : Hook} (hi : Inv fmt s) : s.sends.Nodup :=
  nodup_of_ordinals s.sends (fun n => by have := hi.once n; omega)


theorem cap_step {fmt : Formatter} {s s2 : Hook} {a : Action} (hs : Step fmt s a s2) :
    s2.cap = s.cap := by
  cases hs <;> rfl

theorem cap_run {fmt : Formatter} {s s2 : Hook} (as : List Action)
    (h : run fmt s as = some s2) : s2.cap = s.cap := by
  induction as generalizing s with
  | nil => simp only [run, Option.some.injEq] at h; subst h; rfl
  | cons a as ih =>
    simp only [run] at h
    cases hs : step fmt s a with
    | none => simp [hs] at h
    | some s1 =>
      simp only [hs, Option.some_bind] at h
      rw [ih h, cap_step (step_sound hs)]

/-- A step that sends a record finds a free slot, or the worker at its receive on an
empty channel. -/
theorem send_guard {fmt : Formatter} {s s2 : Hook} {a : Action} (hs : Step fmt s a s2)
    (hne : s2.sends ≠ s.sends) :
    s.buf.length < s.cap ∨ (s.worker = Worker.recv ∧ s.buf = []) := by
  cases hs with
  | fireEnqueue t c hm hpc hroom => exact Or.inl hroom
  | fireHandoff t c hm hpc hw hb => exact Or.inr ⟨hw, hb⟩
  | _ => exact absurd rfl hne

theorem held_nil {w : Worker} (h : w.held = []) : w = Worker.recv := by
  cases w <;> simp [Worker.held] at h ⊢

/-- Once every default key is present the defaulting loop assigns nothing. -/
theorem foldl_missing_id (l : List (Sigma (fun _ : String => Value))) (d : Fields)
    (h : ∀ kv ∈ l, (d.lookup kv.1).isSome = true) :
    l.foldl (fun d kv => if (d.lookup kv.1).isSome then d else d.insert kv.1 kv.2) d = d := by
  induction l with
  | nil => rfl
  | cons x xs ih =>
    rw [List.foldl_cons, if_pos (h x (List.mem_cons_self x xs))]
    exact ih (fun kv hkv => h kv (List.mem_cons_of_mem x hkv))

theorem assignMissing_idem (defaults fields : Fields) :
    assignMissing defaults (assignMissing defaults fields) = assignMissing defaults fields := by
  apply foldl_missing_id
  intro kv hkv
  rw [assignMissing_lookup]
  cases hf : fields.lookup kv.1 with
  | some v => rfl
  | none =>
    have hk : kv.1 ∈ defaults := by
      rw [AList.mem_keys]
      exact List.mem_keys_of_mem hkv
    simpa using AList.lookup_isSome.mpr hk

theorem logstashFields_lookup (k : String) :
    logstashFields.lookup k
      = if k = "@version" then some (Value.str "1")
        else if k = "type" then some (Value.str "log") else none := by
  simp only [logstashFields, lookup_insert_if, AList.lookup_empty]


/-! ## The claims -/

/-- Claim C1, flush completeness. In every execution from `New`, when a `Flush` call of goroutine `t`
returns, every record whose `Fire` call had returned before a `Flush` call of `t` began
(`s1.returned`) has been passed to the sink: `Write` has been called with the bytes `Format`
returned for it. -/
theorem flush_completeness (fmt : Formatter) (bufSize : Nat) (as1 as2 : List Action) (t : Tid)
    (s1 s2 s3 s4 : Hook)
    (h1 : run fmt (New bufSize) as1 = some s1)
    (h2 : step fmt s1 (Action.flushCall t) = some s2)
    (h3 : run fmt s2 as2 = some s3)
    (h4 : step fmt s3 (Action.flushReturn t) = some s4) :
    ∀ r ∈ s1.returned, payload fmt r ∈ s4.writes := by
  intro r hr
  have i1 : Inv fmt s1 := inv_run as1 (inv_New fmt bufSize) h1
  have i2 : Inv fmt s2 := inv_step i1 (step_sound h2)
  have i3 : Inv fmt s3 := inv_run as2 i2 h3
  have k2 : (∀ r ∈ s1.returned, r ∈ s2.returned)
      ∧ (∀ f ∈ s2.flushes, f.tid = t → ∀ r ∈ s1.returned, r ∈ f.before) := by
    cases step_sound h2 with
    | flushCall _ hg =>
      refine ⟨fun r hr => hr, fun f hf ht r hr => ?_⟩
      simp only [List.mem_cons] at hf
      rcases hf with hf | hf
      · subst hf; exact hr
      · exact absurd ht (not_inCall_flushes hg f hf)
  obtain ⟨_, k3⟩ := seen_run s1.returned t as2 h3 k2.1 k2.2
  cases step_sound h4 with
  | flushReturn _ c hm hpc ht => exact i3.flush_waited c hm hpc r (k3 c hm ht r hr)

/-- Claim C1 on a trace on a hook of capacity 1: a `Fire` returns, `Flush` is called, the worker
handles the record, `Flush` returns, and the record is among the writes. -/
theorem flush_completeness_witness :
    (0, demoEntry 1) ∈ demoFired.returned
    ∧ payload demoFormatter (0, demoEntry 1) ∈ demoFlushed.writes :=
  ⟨by decide,
    flush_completeness demoFormatter 1 (uncontendedFire 0 (demoEntry 1))
      (fireTurn none ++ [Action.flushLock 1, Action.flushWait 1]) 1
      demoFired demoFlushing demoWaited demoFlushed
      (by decide) (by decide) (by decide) (by decide) (0, demoEntry 1) (by decide)⟩

/-- Claim C2, FIFO order. When every `Fire` call is made by the one goroutine `p`, so that the calls
follow one another, then in every reachable state the sequence of `Write` calls is the
payloads of a prefix of the sequence of `Fire` calls, in the order of the calls, and so are
the records the worker has received. -/
theorem fifo_order (fmt : Formatter) (bufSize : Nat) (p : Tid) (as : List Action) (s : Hook)
    (hrun : run fmt (New bufSize) as = some s)
    (hp : ∀ a ∈ as, ∀ t e, a = Action.fireCall t e → t = p) :
    s.writes <+: s.calls.map (payload fmt)
    ∧ (s.handled ++ s.worker.held) <+: s.calls := by
  have hi : Inv fmt s := inv_run as (inv_New fmt bufSize) hrun
  have hc := single_run p as hrun hp (by simp [New]) (by simp [New]) (by simp [New])
  have hw := writes_prefix_sends hi
  constructor
  · refine hw.trans ?_
    rw [hc, List.map_append]
    exact List.prefix_append _ _
  · rw [hc, hi.sends_eq, List.append_assoc]
    exact List.prefix_append _ _

/-- Claim C2 on a trace: one goroutine fires twice into a hook of capacity 2 and the worker takes
one turn. -/
theorem fifo_order_witness :
    run demoFormatter (New 2)
        (uncontendedFire 0 (demoEntry 1) ++ uncontendedFire 0 (demoEntry 2) ++ fireTurn none)
      = some { New 2 with
          buf := [(1, demoEntry 2)], wg := 1, writes := [(0, [1])],
          calls := [(0, demoEntry 1), (1, demoEntry 2)],
          sends := [(0, demoEntry 1), (1, demoEntry 2)], handled := [(0, demoEntry 1)],
          returned := [(0, demoEntry 1), (1, demoEntry 2)] }
    ∧ [((0 : Nat), ([1] : Bytes))]
        <+: [(0, demoEntry 1), (1, demoEntry 2)].map (payload demoFormatter)
    ∧ ([(0, demoEntry 1)] ++ Worker.recv.held) <+: [(0, demoEntry 1), (1, demoEntry 2)] :=
  ⟨by decide,
    fifo_order demoFormatter 2 0
      (uncontendedFire 0 (demoEntry 1) ++ uncontendedFire 0 (demoEntry 2) ++ fireTurn none)
      { New 2 with
          buf := [(1, demoEntry 2)], wg := 1, writes := [(0, [1])],
          calls := [(0, demoEntry 1), (1, demoEntry 2)],
          sends := [(0, demoEntry 1), (1, demoEntry 2)], handled := [(0, demoEntry 1)],
          returned := [(0, demoEntry 1), (1, demoEntry 2)] }
      (by decide)
      (by
        intro a ha t e h
        subst h
        simp [uncontendedFire, fireTurn] at ha
        rcases ha with h | h <;> exact h.1)⟩

/-- Claim C3, field merge precedence. The merged entry has the `Message`, `Level` and `Time` of `e`;
its `Data` maps a key to the value in `e.Data` if there is one, else to the value in `F` if
there is one, else, when `e` has caller info, `"function"` to the caller's function and
`"file"` to the caller's file, a colon and the line in decimal; and it has no other key.
With fields `a=1`, static fields `a=2, b=3` and no caller, the result has `a=1`, `b=3` and
nothing else; with a caller `main.run` at `main.go`, line 42, and static fields `a=2` and
`file=static`, it has `function=main.run`, `file=static`, `a=2`, and without the static
`file` it has `file=main.go:42`. -/
theorem copyEntry_merge_precedence (pool : Pool) (pick : Option Nat) (e : Entry) (F : Fields) :
    (copyEntry pool pick e F).1.Message = e.Message
    ∧ (copyEntry pool pick e F).1.Level = e.Level
    ∧ (copyEntry pool pick e F).1.Time = e.Time
    ∧ (∀ k, (copyEntry pool pick e F).1.Data.lookup k
        = match e.Data.lookup k with
          | some v => some v
          | none =>
            match F.lookup k with
            | some v => some v
            | none =>
              match e.HasCaller, e.Caller with
              | true, some c =>
                if k = "file" then some (Value.str (c.File ++ ":" ++ toString c.Line))
                else if k = "function" then some (Value.str c.Function)
                else none
              | _, _ => none)
    ∧ (∀ k, (copyEntry { free := [], history := [] } none
          { newEntry with Data := (∅ : Fields).insert "a" (Value.int 1) }
          (((∅ : Fields).insert "a" (Value.int 2)).insert "b" (Value.int 3))).1.Data.lookup k
        = if k = "a" then some (Value.int 1) else if k = "b" then some (Value.int 3)
          else none)
    ∧ (∀ k, (copyEntry { free := [], history := [] } none
          { newEntry with
            ReportCaller := true,
            Caller := some { Function := "main.run", File := "main.go", Line := 42 } }
          (∅ : Fields)).1.Data.lookup k
        = if k = "function" then some (Value.str "main.run")
          else if k = "file" then some (Value.str "main.go:42") else none)
    ∧ (∀ k, (copyEntry { free := [], history := [] } none
          { newEntry with
            ReportCaller := true,
            Caller := some { Function := "main.run", File := "main.go", Line := 42 } }
          (((∅ : Fields).insert "a" (Value.int 2)).insert "file" (Value.str "static"))).1.Data.lookup k
        = if k = "function" then some (Value.str "main.run")
          else if k = "file" then some (Value.str "static")
          else if k = "a" then some (Value.int 2) else none)
    ∧ sprintfFileLine "a/b.go" (-7) = "a/b.go:-7"
    ∧ sprintfFileLine "" 0 = ":0" := by
  refine ⟨rfl, rfl, rfl, fun k => ?_, fun k => ?_, fun k => ?_, fun k => ?_, by decide,
    by decide⟩
  · exact copyEntryInto_lookup _ e F k
  · simp only [copyEntry, copyEntryInto_lookup, lookup_insert_if, AList.lookup_empty]
    by_cases h1 : k = "a"
    · simp [h1]
    · by_cases h2 : k = "b"
      · subst h2; simp [newEntry, Entry.HasCaller]
      · simp [h1, h2, newEntry, Entry.HasCaller]
  · have h42 : sprintfFileLine "main.go" 42 = "main.go:42" := by decide
    simp only [copyEntry, copyEntryInto_lookup, AList.lookup_empty]
    by_cases h1 : k = "function"
    · subst h1; simp [newEntry, Entry.HasCaller]
    · by_cases h2 : k = "file"
      · subst h2; simp [newEntry, Entry.HasCaller, h42]
      · simp [h1, h2, newEntry, Entry.HasCaller]
  · simp only [copyEntry, copyEntryInto_lookup, lookup_insert_if, AList.lookup_empty]
    by_cases h1 : k = "function"
    · subst h1; simp [newEntry, Entry.HasCaller]
    · by_cases h2 : k = "file"
      · subst h2; simp [newEntry, Entry.HasCaller]
      · by_cases h3 : k = "a"
        · subst h3; simp [newEntry, Entry.HasCaller]
        · simp [h1, h2, h3, newEntry, Entry.HasCaller]

/-- Claim C5, pool isolation. Whatever the pool holds and whichever pooled entry `Get` hands out,
the `Time`, `Level`, `Message` and `Data` of the merged entry are the same, and every key of
its `Data` comes, with its value, from `e`, from `F` or from the caller info of `e`. -/
theorem pool_isolation (pool1 pool2 : Pool) (pick1 pick2 : Option Nat) (ne1 ne2 : Entry)
    (e : Entry) (F : Fields) :
    (copyEntry pool1 pick1 e F).1.Time = (copyEntry pool2 pick2 e F).1.Time
    ∧ (copyEntry pool1 pick1 e F).1.Level = (copyEntry pool2 pick2 e F).1.Level
    ∧ (copyEntry pool1 pick1 e F).1.Message = (copyEntry pool2 pick2 e F).1.Message
    ∧ (copyEntry pool1 pick1 e F).1.Data = (copyEntry pool2 pick2 e F).1.Data
    ∧ (copyEntryInto ne1 e F).Time = (copyEntryInto ne2 e F).Time
    ∧ (copyEntryInto ne1 e F).Level = (copyEntryInto ne2 e F).Level
    ∧ (copyEntryInto ne1 e F).Message = (copyEntryInto ne2 e F).Message
    ∧ (copyEntryInto ne1 e F).Data = (copyEntryInto ne2 e F).Data
    ∧ (∀ k v, (copyEntryInto ne1 e F).Data.lookup k = some v →
        e.Data.lookup k = some v ∨ F.lookup k = some v
        ∨ (e.HasCaller = true ∧ ∃ c, e.Caller = some c
            ∧ ((k = "function" ∧ v = Value.str c.Function)
              ∨ (k = "file" ∧ v = Value.str (sprintfFileLine c.File c.Line))))) := by
  refine ⟨rfl, rfl, rfl, rfl, rfl, rfl, rfl, rfl, fun k v h => ?_⟩
  rw [copyEntryInto_lookup] at h
  cases h1 : e.Data.lookup k with
  | some x => left; simpa [h1] using h
  | none =>
    cases h2 : F.lookup k with
    | some x => right; left; simpa [h1, h2] using h
    | none =>
      right; right
      simp only [h1, h2] at h
      cases hf : e.Caller with
      | none => cases hc : e.HasCaller <;> simp [hc, hf] at h
      | some c =>
        cases hc : e.HasCaller with
        | false => simp [hc, hf] at h
        | true =>
          simp only [hc, hf] at h
          refine ⟨rfl, c, rfl, ?_⟩
          by_cases k1 : k = "file"
          · right; simp only [k1, if_true, Option.some.injEq] at h; exact ⟨k1, h.symm⟩
          · by_cases k2 : k = "function"
            · left
              subst k2
              simp at h
              exact ⟨rfl, h.symm⟩
            · simp [k1, k2] at h

/-- Claim C6, pending-count invariant. In every reachable state the counter is not negative and is
at least the number of records in the channel plus one if the worker holds a record whose
`Done` has not run; it is zero only with the channel empty and the worker at its receive;
and `Done` leaves it non-negative. -/
theorem pending_count_invariant (fmt : Formatter) (bufSize : Nat) (as : List Action) (s : Hook)
    (hrun : run fmt (New bufSize) as = some s) :
    0 ≤ s.wg
    ∧ ((s.buf.length + s.worker.held.length : Nat) : Int) ≤ s.wg
    ∧ (s.wg = 0 → s.buf = [] ∧ s.worker = Worker.recv)
    ∧ (∀ s2, step fmt s Action.workerDone = some s2 → 0 ≤ s2.wg) := by
  have hi : Inv fmt s := inv_run as (inv_New fmt bufSize) hrun
  have h1 := hi.wg_eq
  refine ⟨by omega, by omega, fun hz => ?_, fun s2 h2 => ?_⟩
  · exact ⟨List.length_eq_zero.mp (by omega), held_nil (List.length_eq_zero.mp (by omega))⟩
  · have h3 := (inv_step hi (step_sound h2)).wg_eq
    omega

/-- Claim C6 on the hook after one `Fire`: the counter is 1 with one record in the channel. -/
theorem pending_count_invariant_witness :
    0 ≤ demoFired.wg
    ∧ ((demoFired.buf.length + demoFired.worker.held.length : Nat) : Int) ≤ demoFired.wg
    ∧ (demoFired.wg = 0 → demoFired.buf = [] ∧ demoFired.worker = Worker.recv)
    ∧ (∀ s2, step demoFormatter demoFired Action.workerDone = some s2 → 0 ≤ s2.wg) :=
  pending_count_invariant demoFormatter 1 (uncontendedFire 0 (demoEntry 1)) demoFired
    (by decide)


theorem flushWait_enabled (fmt : Formatter) (s : Hook) (t : Tid) (c : FlushCall)
    (hc : s.flushAt t FlushPC.locked = some c) (hz : s.wg = 0) :
    (step fmt s (Action.flushWait t)).isSome = true := by
  simp [step, hc, hz]

/-- Claim C4, error isolation. With the worker at its receive and any records in the channel, the
worker running alone takes one turn per record whatever the formatter and the sink answer:
the run ends with the channel empty, the counter lowered by exactly the number of records,
one `Write` per record with the bytes `Format` returned for that record, and every error
printed. So a record's payload does not depend on the failures of the others: any second
run, with a formatter that agrees on a record and any sink answers, writes the same payload
at that record's place. If the counter counted only the queued records it is back at zero
and a `Flush` call waiting in `Wait` can go on. -/
theorem error_isolation (fmt : Formatter) (errs : List (Option Error)) (s : Hook)
    (hw : s.worker = Worker.recv) (hlen : errs.length = s.buf.length) :
    run fmt s (fireTurns errs) = some { s with
      buf := [], wg := s.wg - s.buf.length,
      writes := s.writes ++ s.buf.map (payload fmt),
      printed := s.printed ++ turnPrints fmt s.buf errs,
      handled := s.handled ++ s.buf }
    ∧ (∀ (fmt2 : Formatter) (errs2 : List (Option Error)), errs2.length = s.buf.length →
        ∃ s2 s3, run fmt s (fireTurns errs) = some s2 ∧ run fmt2 s (fireTurns errs2) = some s3
          ∧ ∀ i r, s.buf[i]? = some r → fmt2 r.2 = fmt r.2 →
            s2.writes[s.writes.length + i]? = some (payload fmt r)
            ∧ s3.writes[s.writes.length + i]? = some (payload fmt r))
    ∧ (s.wg = s.buf.length →
        ∃ s2, run fmt s (fireTurns errs) = some s2 ∧ s2.wg = 0
          ∧ ∀ t, (s.flushAt t FlushPC.locked).isSome →
              (step fmt s2 (Action.flushWait t)).isSome) := by
  refine ⟨run_fireTurns fmt errs s hw hlen, fun fmt2 errs2 hlen2 => ?_, fun hz => ?_⟩
  · refine ⟨_, _, run_fireTurns fmt errs s hw hlen, run_fireTurns fmt2 errs2 s hw hlen2, ?_⟩
    intro i r hi he
    have hp : payload fmt2 r = payload fmt r := by simp [payload, he]
    simp [List.getElem?_append_right, List.getElem?_map, hi, hp]
  · refine ⟨_, run_fireTurns fmt errs s hw hlen, by simp [hz], fun t ht => ?_⟩
    cases hc : s.flushAt t FlushPC.locked with
    | none => simp [hc] at ht
    | some c => exact flushWait_enabled fmt _ t c hc (by simp [hz])

/-- Claim C4 on ten records of which the formatter fails on the fifth: ten writes, those of records
1-4 and 6-10 as without the failure, and the counter back at zero. -/
theorem error_isolation_witness :
    run demoFormatter (New 16)
        (((List.range 10).map (fun i => uncontendedFire 0 (demoEntry (i + 1)))).flatten)
      = some demoQueue
    ∧ demoQueue.writes ++ demoQueue.buf.map (payload demoFormatter)
      = [(0, [1]), (1, [2]), (2, [3]), (3, [4]), (4, []), (5, [6]), (6, [7]), (7, [8]),
          (8, [9]), (9, [10])]
    ∧ demoQueue.writes ++ demoQueue.buf.map (payload soundFormatter)
      = [(0, [1]), (1, [2]), (2, [3]), (3, [4]), (4, [5]), (5, [6]), (6, [7]), (7, [8]),
          (8, [9]), (9, [10])]
    ∧ demoQueue.wg - demoQueue.buf.length = 0
    ∧ run demoFormatter demoQueue (fireTurns (List.replicate 10 none)) = some { demoQueue with
        buf := [], wg := demoQueue.wg - demoQueue.buf.length,
        writes := demoQueue.writes ++ demoQueue.buf.map (payload demoFormatter),
        printed := demoQueue.printed
          ++ turnPrints demoFormatter demoQueue.buf (List.replicate 10 none),
        handled := demoQueue.handled ++ demoQueue.buf } :=
  ⟨by decide, by decide, by decide, by decide,
    (error_isolation demoFormatter (List.replicate 10 none) demoQueue (by decide)
      (by decide)).1⟩

/-- Claim C7, the code at a formatting failure: `fire` prints the error and still calls `Write`
with the bytes `Format` returned. With `brokenFormatter` the byte 123 reaches the sink; with
`demoFormatter` failing on level 5 `Write` is called with no bytes. -/
theorem fire_writes_after_format_failure :
    run brokenFormatter (New 1) (uncontendedFire 0 (demoEntry 1)) = some demoFired
    ∧ brokenFormatter (demoEntry 1) = ([123], some "json: unsupported type")
    ∧ run brokenFormatter demoFired (fireTurn none) = some { demoFired with
        buf := [], wg := 0, writes := [(0, [123])], printed := ["json: unsupported type"],
        handled := [(0, demoEntry 1)] }
    ∧ run demoFormatter (New 1) (uncontendedFire 0 (demoEntry 5) ++ fireTurn none)
      = some { New 1 with
        writes := [(0, [])], printed := ["unsupported field value"],
        calls := [(0, demoEntry 5)], sends := [(0, demoEntry 5)],
        handled := [(0, demoEntry 5)], returned := [(0, demoEntry 5)] } := by
  decide

/-- Claim C8 as stated fails on an unbuffered channel (`BufSize = 0`): the `Fire` call of goroutine 0
completes its send, and returns, although the channel never holds fewer records than its
capacity. -/
theorem send_without_free_slot :
    run demoFormatter (New 0)
        [Action.fireCall 0 (demoEntry 1), Action.fireRLock 0, Action.fireAdd 0]
      = some demoUnbuffered
    ∧ ¬ (demoUnbuffered.buf.length < demoUnbuffered.cap)
    ∧ step demoFormatter demoUnbuffered (Action.fireHandoff 0) = some { demoUnbuffered with
        worker := Worker.got (0, demoEntry 1), sends := [(0, demoEntry 1)],
        fires := [⟨0, (0, demoEntry 1), FirePC.sent⟩] }
    ∧ run demoFormatter demoUnbuffered [Action.fireHandoff 0, Action.fireReturn 0]
      = some { demoUnbuffered with
        readers := 0, worker := Worker.got (0, demoEntry 1), sends := [(0, demoEntry 1)],
        fires := [], returned := [(0, demoEntry 1)] } := by
  decide

/-- Claim C8 as amended, backpressure without loss. The capacity is `BufSize` at the call of
`New`, 8192 as declared. In every reachable state of a hook made with capacity `bufSize`, the
channel holds at most `bufSize` records; a step sends a record only
when the channel holds fewer than `bufSize` records or, the worker waiting at its receive
on an empty channel, straight to the worker, which for `bufSize > 0` is also a state with a
free slot; the buffered send is enabled only with a free slot; and every record whose `Fire` has returned is in the channel, held by the worker or
handled, exactly once (it is in the list of those records, which has no duplicate). -/
theorem backpressure_without_loss (fmt : Formatter) (bufSize : Nat) (as : List Action)
    (s : Hook) (hrun : run fmt (New bufSize) as = some s) :
    (New BufSize).cap = 8192
    ∧ s.cap = bufSize
    ∧ s.buf.length ≤ bufSize
    ∧ (∀ a s2, step fmt s a = some s2 → s2.sends ≠ s.sends →
        s.buf.length < bufSize ∨ (s.worker = Worker.recv ∧ s.buf = []))
    ∧ (0 < bufSize → ∀ a s2, step fmt s a = some s2 → s2.sends ≠ s.sends →
        s.buf.length < bufSize)
    ∧ (∀ t s2, step fmt s (Action.fireEnqueue t) = some s2 → s.buf.length < bufSize)
    ∧ s.sends = s.handled ++ s.worker.held ++ s.buf
    ∧ (s.buf ++ s.worker.held ++ s.handled).Nodup
    ∧ (∀ r ∈ s.returned, r ∈ s.buf ++ s.worker.held ++ s.handled) := by
  have hi : Inv fmt s := inv_run as (inv_New fmt bufSize) hrun
  have hcap : s.cap = bufSize := cap_run as hrun
  have hnd : (s.buf ++ s.worker.held ++ s.handled).Nodup := by
    have h1 := sends_nodup hi
    rw [hi.sends_eq] at h1
    rw [List.append_assoc] at h1
    have p1 : ((s.buf ++ s.worker.held) ++ s.handled).Perm
        (s.handled ++ (s.buf ++ s.worker.held)) := List.perm_append_comm
    have p2 : (s.handled ++ (s.buf ++ s.worker.held)).Perm
        (s.handled ++ (s.worker.held ++ s.buf)) :=
      List.Perm.append_left _ List.perm_append_comm
    exact (p1.trans p2).nodup_iff.mpr h1
  refine ⟨rfl, hcap, hcap ▸ hi.cap_ok, fun a s2 h2 hne => ?_, fun hpos a s2 h2 hne => ?_,
    fun t s2 h2 => ?_, hi.sends_eq, hnd, fun r hr => ?_⟩
  · exact hcap ▸ send_guard (step_sound h2) hne
  · rcases send_guard (step_sound h2) hne with h | ⟨_, hb⟩
    · exact hcap ▸ h
    · simpa [hb] using hpos
  · cases step_sound h2 with
    | fireEnqueue _ c hm hpc hroom => exact hcap ▸ hroom
  · have hm := hi.returned_mem r hr
    rw [hi.sends_eq] at hm
    simp only [List.mem_append] at hm ⊢
    tauto

/-- Claim C8 on capacity 1 with the worker paused: the second `Fire` cannot send until the worker
has received the first record. -/
theorem backpressure_without_loss_witness :
    step demoFormatter demoFull (Action.fireEnqueue 1) = none
    ∧ step demoFormatter demoFull (Action.fireHandoff 1) = none
    ∧ (run demoFormatter demoFull
        [Action.workerRecv, Action.fireEnqueue 1, Action.fireReturn 1]).isSome = true
    ∧ ((New BufSize).cap = 8192
      ∧ demoFull.cap = 1
      ∧ demoFull.buf.length ≤ 1
      ∧ (∀ a s2, step demoFormatter demoFull a = some s2 → s2.sends ≠ demoFull.sends →
          demoFull.buf.length < 1 ∨ (demoFull.worker = Worker.recv ∧ demoFull.buf = []))
      ∧ (0 < 1 → ∀ a s2, step demoFormatter demoFull a = some s2 →
          s2.sends ≠ demoFull.sends → demoFull.buf.length < 1)
      ∧ (∀ t s2, step demoFormatter demoFull (Action.fireEnqueue t) = some s2 →
          demoFull.buf.length < 1)
      ∧ demoFull.sends = demoFull.handled ++ demoFull.worker.held ++ demoFull.buf
      ∧ (demoFull.buf ++ demoFull.worker.held ++ demoFull.handled).Nodup
      ∧ (∀ r ∈ demoFull.returned,
          r ∈ demoFull.buf ++ demoFull.worker.held ++ demoFull.handled)) :=
  ⟨by decide, by decide, by decide,
    backpressure_without_loss demoFormatter 1
      (uncontendedFire 0 (demoEntry 1)
        ++ [Action.fireCall 1 (demoEntry 2), Action.fireRLock 1, Action.fireAdd 1])
      demoFull (by decide)⟩

/-- Claim C9, `Format` delegates and propagates. `f.Format(e)` returns the bytes and the error of
the inner formatter on the merged entry `copyEntry(e, f.Fields)`, on success and on failure
alike. The calls it makes, as each records itself, are `Get`, then the inner `Format` of the
merged entry, run while the free list is the one `Get` left (the merged entry has not been
put back), then one `Put` of the merged entry: the history grows by exactly these three, the
only `Put` among them is the last, nothing before the inner `Format` is a `Put`, and the
free list ends as the merged entry on top of the one `Get` left. -/
theorem format_delegates (f : LogstashFormatter) (pool : Pool) (pick : Option Nat) (e : Entry) :
    ((f.Format pool pick e).dataBytes, (f.Format pool pick e).err)
      = f.Formatter (copyEntry pool pick e f.Fields).1
    ∧ (∀ b, f.Formatter (copyEntry pool pick e f.Fields).1 = (b, none) →
        (f.Format pool pick e).dataBytes = b ∧ (f.Format pool pick e).err = none)
    ∧ (∀ b err, f.Formatter (copyEntry pool pick e f.Fields).1 = (b, some err) →
        (f.Format pool pick e).dataBytes = b ∧ (f.Format pool pick e).err = some err)
    ∧ (f.Format pool pick e).pool.free
      = (copyEntry pool pick e f.Fields).1 :: (entryPoolGet pool pick).2.free
    ∧ (f.Format pool pick e).pool.history
      = pool.history
        ++ [FormatEvent.get (entryPoolGet pool pick).1,
          FormatEvent.innerFormat (copyEntry pool pick e f.Fields).1
            (entryPoolGet pool pick).2.free,
          FormatEvent.put (copyEntry pool pick e f.Fields).1]
    ∧ ((f.Format pool pick e).pool.history.drop pool.history.length).filter FormatEvent.isPut
      = [FormatEvent.put (copyEntry pool pick e f.Fields).1]
    ∧ (∀ pre post, (f.Format pool pick e).pool.history.drop pool.history.length
          = pre ++ FormatEvent.innerFormat (copyEntry pool pick e f.Fields).1
              (entryPoolGet pool pick).2.free :: post →
        pre.filter FormatEvent.isPut = []
        ∧ post = [FormatEvent.put (copyEntry pool pick e f.Fields).1]) := by
  have hget : (entryPoolGet pool pick).2.history
      = pool.history ++ [FormatEvent.get (entryPoolGet pool pick).1] := by
    unfold entryPoolGet
    split
    · rfl
    · split <;> rfl
  have hhist : (f.Format pool pick e).pool.history
      = pool.history
        ++ [FormatEvent.get (entryPoolGet pool pick).1,
          FormatEvent.innerFormat (copyEntry pool pick e f.Fields).1
            (entryPoolGet pool pick).2.free,
          FormatEvent.put (copyEntry pool pick e f.Fields).1] := by
    simp [LogstashFormatter.Format, LogstashFormatter.innerFormat, releaseEntry, entryPoolPut,
      copyEntry, hget]
  refine ⟨rfl, fun b h => ?_, fun b err h => ?_, rfl, hhist, ?_, fun pre post h => ?_⟩
  · have h2 : ((f.Format pool pick e).dataBytes, (f.Format pool pick e).err) = (b, none) := h
    simpa using h2
  · have h2 : ((f.Format pool pick e).dataBytes, (f.Format pool pick e).err)
        = (b, some err) := h
    simpa using h2
  · rw [hhist, List.drop_left]
    simp [FormatEvent.isPut]
  · rw [hhist, List.drop_left] at h
    match pre, h with
    | [], h =>
      simp only [List.nil_append, List.cons.injEq, reduceCtorEq, false_and] at h
    | [x], h =>
      simp only [List.singleton_append, List.cons.injEq, FormatEvent.innerFormat.injEq,
        true_and] at h
      obtain ⟨hx, hp⟩ := h
      subst hx
      exact ⟨by simp [FormatEvent.isPut], hp.symm⟩
    | [x, y], h =>
      simp only [List.cons_append, List.nil_append, List.cons.injEq, reduceCtorEq,
        false_and, and_false] at h
    | x :: y :: z :: rest, h =>
      simp only [List.cons_append, List.cons.injEq] at h
      obtain ⟨_, _, _, h4⟩ := h
      simp at h4

/-- Claim C10, default static fields. For a non-nil map `F`, `DefaultFormatter(F)` returns a
formatter whose static fields hold every entry of `F` unchanged, `"@version" = "1"` and
`"type" = "log"` for those of the two keys `F` lacks, and no other key, in whatever order the
defaults are visited; defaulting a second time changes nothing. -/
theorem default_static_fields (json : Formatter) (F : Fields) :
    DefaultFormatter json (some F)
      = Except.ok { Formatter := json, Fields := assignMissing logstashFields F }
    ∧ (∀ k, (assignMissing logstashFields F).lookup k
        = match F.lookup k with
          | some v => some v
          | none =>
            if k = "@version" then some (Value.str "1")
            else if k = "type" then some (Value.str "log") else none)
    ∧ (∀ defaults : Fields, (∀ k, defaults.lookup k = logstashFields.lookup k) →
        ∀ k, (assignMissing defaults F).lookup k = (assignMissing logstashFields F).lookup k)
    ∧ DefaultFormatter json (some (assignMissing logstashFields F))
      = DefaultFormatter json (some F) := by
  refine ⟨rfl, fun k => ?_, fun defaults hd k => ?_, ?_⟩
  · rw [assignMissing_lookup, logstashFields_lookup]
  · rw [assignMissing_lookup, assignMissing_lookup, hd]
  · simp only [DefaultFormatter, assignMissing_idem]


end Logstash
